import Mathlib

/-!
Verification of the pyramid-alembic wrapper (src/pyramid_alembic/context.py)
and of the revision-graph engine that its spec reconstructs.

Part 1 embeds the wrapper methods of class Alembic as they are written,
including Python name resolution: the module references the names
string_types and current_app without ever importing or defining them, so
looking either of them up is a NameError.  Python values are modelled by
the inductive PyVal; fallible evaluation returns Except PyErr.

Part 2 (further below) models the revision-graph engine.  That engine is
not part of src/ (the wrapper delegates every graph operation to the
wrapped migration library), so it is modelled from the spec.
-/

/-- Python runtime errors that the embedded code can surface.  The
constructor insufficientRevisions renders the error named by the spec
for a merge with fewer than two inputs; the source never raises it. -/
inductive PyErr where
  | nameError (n : String)
  | typeError
  | valueError
  | insufficientRevisions
deriving DecidableEq, Repr

/-- Python values, as far as the embedded module manipulates them:
None, booleans, integers, strings, lists, tuples, and objects that may
carry a revision attribute (the code uses getattr with that name). -/
inductive PyVal where
  | none
  | bool (b : Bool)
  | int (n : Int)
  | str (s : String)
  | list (xs : List PyVal)
  | tuple (xs : List PyVal)
  | obj (revisionAttr : Option PyVal)

/-- Python truthiness: None, False, 0, the empty string and empty
containers are falsy; objects are truthy. -/
def pyTruthy : PyVal → Bool
  | .none => false
  | .bool b => b
  | .int n => n != 0
  | .str s => s != ""
  | .list xs => !xs.isEmpty
  | .tuple xs => !xs.isEmpty
  | .obj _ => true

/-- getattr(r, the revision attribute, r): an object carrying the
attribute yields it, every other value yields itself. -/
def getattrRevision : PyVal → PyVal
  | .obj (some r) => r
  | v => v

/-- Whether a value is the None object (the source tests with the
identity operator, which for None is equivalent to being None). -/
def isNone : PyVal → Bool
  | .none => true
  | _ => false

/-- str(v) for the values the embedded code stringifies. -/
def pyStr : PyVal → String
  | .none => "None"
  | .bool b => if b then "True" else "False"
  | .int n => toString n
  | .str s => s
  | .list _ => "[...]"
  | .tuple _ => "(...)"
  | .obj _ => "<object>"

/-- The names bound at module level in context.py (its import targets
and the class it defines) together with the Python builtins the module
uses.  Neither string_types nor current_app is among them: the module
references both without importing them from six or from a web framework. -/
def moduleNames : List String :=
  ["os", "shutil", "autogenerate", "util", "Config", "EnvironmentContext",
   "Operations", "ResolutionError", "ScriptDirectory", "create_engine",
   "Iterable", "Alembic",
   "isinstance", "getattr", "list", "dict", "any", "set", "str", "int",
   "enumerate", "property", "object", "ValueError"]

/-- Looking a name up in an environment of defined names: undefined
names raise NameError. -/
def requireName (env : List String) (n : String) : Except PyErr Unit :=
  if env.contains n then .ok () else .error (.nameError n)

/-- Whether a value is a Python string. -/
def isStrB : PyVal → Bool
  | .str _ => true
  | _ => false

/-- isinstance(v, string_types): evaluating the expression first looks
up the name string_types; only if that is defined (as the tuple of the
string type, its conventional six meaning) is v tested for stringness. -/
def isinstanceStr (env : List String) (v : PyVal) : Except PyErr Bool :=
  if env.contains "string_types" then .ok (isStrB v)
  else .error (.nameError "string_types")

/-- The comma join used by merge for its default message: every element
must already be a string, otherwise Python raises TypeError. -/
def joinStrs (xs : List PyVal) : Except PyErr String :=
  match xs.mapM (fun v => match v with | .str s => some s | _ => Option.none) with
  | some ss => .ok (String.intercalate ", " ss)
  | Option.none => .error .typeError

/-- Iterating a Python value to build the list of getattr results, as in
the comprehensions of merge and revision; non-iterables raise TypeError. -/
def iterRevs : PyVal → Except PyErr (List PyVal)
  | .list xs => .ok (xs.map getattrRevision)
  | .tuple xs => .ok (xs.map getattrRevision)
  | _ => .error .typeError

namespace Alembic

/-- The condition of the constructor of class Alembic: mkdir runs only
when the run_mkdir argument is the object True itself (the source tests
run_mkdir is True, an identity test, which only the boolean True
satisfies; the truthy integer one is a different object). -/
def initCallsMkdir (run_mkdir : PyVal) : Bool :=
  match run_mkdir with
  | .bool true => true
  | _ => false

/-- int(v): integers and booleans convert, strings parse or raise
ValueError, every other value raises TypeError. -/
def pyInt : PyVal → Except PyErr Int
  | .int n => .ok n
  | .bool b => .ok (if b then 1 else 0)
  | .str s => match s.toInt? with
      | some n => .ok n
      | Option.none => .error .valueError
  | _ => .error .typeError

/-- The target normalization of Alembic.downgrade: try int(target); on
success negate a positive value; on ValueError fall back to
getattr(target, the revision attribute, target); finally stringify.
Other conversion errors (TypeError) propagate uncaught. -/
def downgradeTarget (target : PyVal) : Except PyErr String :=
  match pyInt target with
  | .ok n => .ok (toString (if 0 < n then -n else n))
  | .error .valueError => .ok (pyStr (getattrRevision target))
  | .error e => .error e

/-- Outcome record of Alembic.run_migrations: the result that reaches
the caller, whether a connection was opened, and whether it was closed. -/
structure MigrationRun where
  result : Except PyErr Unit
  connectionOpened : Bool
  connectionClosed : Bool

/-- Alembic.run_migrations: connect, configure the environment, then
inside try/finally begin a transaction and run the migration function;
the finally clause closes the connection.  The outcomes of the external
steps (engine connect, env.configure, begin_transaction, the migration
function itself) are parameters of the model. -/
def run_migrations (connect configure txn fn : Except PyErr Unit) : MigrationRun :=
  match connect with
  | .error e => { result := .error e, connectionOpened := false, connectionClosed := false }
  | .ok _ =>
    match configure with
    | .error e => { result := .error e, connectionOpened := true, connectionClosed := false }
    | .ok _ =>
      let body : Except PyErr Unit :=
        match txn with
        | .error e => .error e
        | .ok _ => fn
      { result := body, connectionOpened := true, connectionClosed := true }

/-- What Alembic.merge hands to the generate_revision call of the script
directory when it gets that far. -/
structure MergeCall where
  head : List PyVal
  message : PyVal
  branch_labels : PyVal

/-- Lines 328 to 333 of the source: a falsy revisions argument becomes
the heads one-tuple, a string becomes a one-tuple (after the isinstance
test resolves string_types), anything else is iterated through getattr. -/
def mergeRevisionsNorm (env : List String) (revisions : PyVal) :
    Except PyErr (List PyVal) :=
  if pyTruthy revisions = false then .ok [PyVal.str "heads"]
  else
    match isinstanceStr env revisions with
    | .error e => .error e
    | .ok true => .ok [revisions]
    | .ok false => iterRevs revisions

/-- Lines 335 and 336 of the source: a None message defaults to the
joined revision names. -/
def mergeMessageNorm (revs : List PyVal) (message : PyVal) :
    Except PyErr PyVal :=
  if isNone message then
    match joinStrs revs with
    | .error e => .error e
    | .ok s => .ok (.str ("merge " ++ s))
  else .ok message

/-- Alembic.merge, line by line: normalize revisions, default the
message, wrap a string label in a tuple (another isinstance test
against string_types), then call generate_revision. -/
def merge (env : List String) (revisions message label : PyVal) :
    Except PyErr MergeCall :=
  match mergeRevisionsNorm env revisions with
  | .error e => .error e
  | .ok revs =>
    match mergeMessageNorm revs message with
    | .error e => .error e
    | .ok msg =>
      match isinstanceStr env label with
      | .error e => .error e
      | .ok b =>
        .ok { head := revs, message := msg,
              branch_labels := if b then PyVal.tuple [label] else label }

end Alembic

/-- Python sequence produced by the parent normalization of
Alembic.revision: the source builds either a tuple (immutable) or a
list comprehension result (mutable); assigning into a tuple raises
TypeError. -/
inductive PySeq where
  | tuple (xs : List PyVal)
  | list (xs : List PyVal)

/-- Whether an item of the parent sequence is the symbolic string base
or head (the membership test of line 268 of the source). -/
def isBaseOrHead (v : PyVal) : Bool :=
  match v with
  | .str s => s == "base" || s == "head"
  | _ => false

/-- The branch qualification applied to one parent item: base and head
become branch@base and branch@head, everything else is untouched. -/
def qualifyItem (branch : String) (v : PyVal) : PyVal :=
  match v with
  | .str s => if s == "base" || s == "head" then .str (branch ++ "@" ++ s) else .str s
  | v => v

/-- The qualification loop of Alembic.revision: on a list it rewrites
the items in place; on a tuple the first attempted item assignment
raises TypeError, so a tuple containing base or head fails. -/
def qualifySeq (branch : String) : PySeq → Except PyErr PySeq
  | .list xs => .ok (.list (xs.map (qualifyItem branch)))
  | .tuple xs => if xs.any isBaseOrHead then .error .typeError else .ok (.tuple xs)

namespace Alembic

/-- What Alembic.revision hands to the generate_revision call of the
script directory when it gets that far. -/
structure RevisionCall where
  message : String
  head : PySeq
  splice : Bool
  depends_on : PyVal
  branch_labels : List PyVal
  version_path : PyVal

/-- Lines 251 to 256 of the source: normalize the parent argument; None
becomes the head one-tuple, a string becomes a one-tuple (after the
isinstance test resolves string_types), anything else a list
comprehension of getattr results.  The one-tuples stay tuples, the
comprehension builds a list. -/
def parentNorm (env : List String) (parent : PyVal) : Except PyErr PySeq :=
  if isNone parent then .ok (.tuple [PyVal.str "head"])
  else
    match isinstanceStr env parent with
    | .error e => .error e
    | .ok true => .ok (.tuple [parent])
    | .ok false =>
      match iterRevs parent with
      | .error e => .error e
      | .ok xs => .ok (.list xs)

/-- Lines 258 to 263 of the source: normalize the label argument into a
list. -/
def labelNorm (env : List String) (label : PyVal) : Except PyErr (List PyVal) :=
  if isNone label then .ok []
  else
    match isinstanceStr env label with
    | .error e => .error e
    | .ok true => .ok [label]
    | .ok false =>
      match label with
      | .list xs => .ok xs
      | .tuple xs => .ok xs
      | _ => .error .typeError

/-- Lines 271 to 275 of the source: when no path was given, look the
branch up in the version-locations configuration of the application;
evaluating that expression resolves the name current_app first, and the
configured lookup result is the parameter branchPathCfg. -/
def branchPathLookup (env : List String) (branchPathCfg : Option String)
    (path : PyVal) : Except PyErr PyVal :=
  if pyTruthy path then .ok path
  else
    match requireName env "current_app" with
    | .error e => .error e
    | .ok _ =>
      match branchPathCfg with
      | some bp => .ok (.str bp)
      | Option.none => .ok path

/-- Lines 265 to 285 of the source, the independent-branch management:
qualify base and head parents with the branch name (a TypeError when the
parents are a tuple), look the branch path up, then, when the branch has
no revision yet, re-parent to the base one-tuple and push the branch
name onto the labels. -/
def branchStep (env : List String) (branchExists : Bool)
    (branchPathCfg : Option String) (branch : String) (parent1 : PySeq)
    (label1 : List PyVal) (path : PyVal) :
    Except PyErr (PySeq × List PyVal × PyVal) :=
  if branch = "" then .ok (parent1, label1, path)
  else
    match qualifySeq branch parent1 with
    | .error e => .error e
    | .ok parent2 =>
      match branchPathLookup env branchPathCfg path with
      | .error e => .error e
      | .ok path1 =>
        if branchExists then .ok (parent2, label1, path1)
        else .ok (.tuple [PyVal.str "base"], PyVal.str branch :: label1, path1)

/-- os.path.isabs on a posix path: the path begins with a slash. -/
def isAbsPath (p : String) : Bool :=
  match p.data with
  | [] => false
  | c :: _ => c == '/'

/-- Lines 290 to 292 of the source: a truthy relative path (neither
absolute nor containing a colon) is joined onto the application root,
which resolves the name current_app first. -/
def pathResolve (env : List String) (rootPath : String) (path4 : PyVal) :
    Except PyErr PyVal :=
  if pyTruthy path4 then
    match path4 with
    | .str p =>
      if isAbsPath p || p.data.contains ':' then .ok path4
      else
        match requireName env "current_app" with
        | .error e => .error e
        | .ok _ => .ok (.str (rootPath ++ "/" ++ p))
    | _ => .error .typeError
  else .ok path4

/-- Alembic.revision, line by line, as a composition of the steps
above.  External collaborators are parameters: branchExists is the
outcome of the revision-map lookup for the branch (False when that
lookup raises ResolutionError), branchPathCfg the version-locations
entry for the branch, scriptDir the script directory path, rootPath the
application root, revEnv the revision_environment option, and mig the
outcome of the run_migrations call that autogenerates operations.  Name
lookups of string_types and current_app go through the environment env,
exactly where the source references them. -/
def revision (env : List String) (branchExists : Bool) (branchPathCfg : Option String)
    (scriptDir rootPath : String) (revEnv : Bool) (mig : Except PyErr Unit)
    (message : String) (empty : Bool) (branch : String) (parent : PyVal)
    (splice : Bool) (depend : PyVal) (label : PyVal) (path : PyVal) :
    Except PyErr RevisionCall :=
  match parentNorm env parent with
  | .error e => .error e
  | .ok parent1 =>
    match labelNorm env label with
    | .error e => .error e
    | .ok label1 =>
      match branchStep env branchExists branchPathCfg branch parent1 label1 path with
      | .error e => .error e
      | .ok (parent3, label3, path3) =>
        match pathResolve env rootPath
            (if pyTruthy path3 then path3 else PyVal.str scriptDir) with
        | .error e => .error e
        | .ok path5 =>
          match (if !empty || revEnv then mig else .ok ()) with
          | .error e => .error e
          | .ok _ =>
            .ok { message := message, head := parent3, splice := splice,
                  depends_on := depend, branch_labels := label3, version_path := path5 }

end Alembic

/-!
Part 2: the Revision Graph Engine.  The wrapper methods log, heads,
branches, revision and merge all delegate the graph work to the wrapped
migration library, whose code is not part of src/; the spec reconstructs
that engine as its core.  The definitions below are therefore modelled
from the spec (sections 3 and 4.1), not translated from src/.
-/

/-- Modelled from the spec: a revision record (section 3) with its
identifier, message, ordered parent identifiers, depends-on identifiers,
branch labels and storage path.  The engine of the wrapped library is
missing from src/, so the record follows the words of the spec. -/
structure Revision where
  identifier : String
  message : String
  parents : List String
  dependsOn : List String
  labels : List String
  path : String
deriving DecidableEq, Repr

/-- The identifiers of a graph, in graph order. -/
def ids (g : List Revision) : List String := g.map Revision.identifier

/-- The identifiers a revision must come after: its parents and its
depends-on revisions. -/
def edgeTargets (r : Revision) : List String := r.parents ++ r.dependsOn

/-- The prerequisite edge of a graph: x points to y when y is a parent
or dependency of x and both belong to the graph. -/
def EdgeIn (g : List Revision) (x y : Revision) : Prop :=
  x ∈ g ∧ y ∈ g ∧ y.identifier ∈ edgeTargets x

/-- Modelled from the spec: a validated revision graph (section 3):
identifiers are unique, every referenced parent or dependency exists in
the set, and no revision reaches itself along parent or dependency
edges. -/
structure Validated (g : List Revision) : Prop where
  nodupIds : (ids g).Nodup
  closed : ∀ r ∈ g, ∀ p ∈ edgeTargets r, p ∈ ids g
  acyclic : ∀ r, ¬ Relation.TransGen (EdgeIn g) r r

/-- Modelled from the spec: the children index derived from the inverse
of the parent relation (section 3). -/
def childrenIndex (g : List Revision) (pid : String) : List String :=
  ids (g.filter (fun r => r.parents.contains pid))

/-- Every identifier referenced as a parent anywhere in the graph. -/
def parentRefs (g : List Revision) : List String :=
  (g.map Revision.parents).flatten

/-- Whether some revision of the graph lists pid among its parents. -/
def hasChild (g : List Revision) (pid : String) : Bool :=
  g.any (fun r => r.parents.contains pid)

/-- Whether some revision of the graph carries the branch label b. -/
def branchKnown (g : List Revision) (b : String) : Bool :=
  g.any (fun r => r.labels.contains b)

/-- Insertion of a revision into a list kept ascending by identifier. -/
def insertById (r : Revision) : List Revision → List Revision
  | [] => [r]
  | x :: xs => if r.identifier ≤ x.identifier then r :: x :: xs else x :: insertById r xs

/-- Sorting revisions by identifier, the deterministic order the spec
asks of the engine for reproducibility. -/
def sortById (l : List Revision) : List Revision := l.foldr insertById []

/-- Modelled from the spec: the heads operation (section 4.1).  With
resolve_dependencies false it returns the parent-chain leaves read off
the children index; with resolve_dependencies true dependency edges are
additionally ordering constraints for the walk (which the walk below
always respects), and the leaves are computed from the set of referenced
parents; both in ascending identifier order. -/
def heads (g : List Revision) (resolve_dependencies : Bool) : List Revision :=
  if resolve_dependencies then
    sortById (g.filter (fun r => !((parentRefs g).contains r.identifier)))
  else
    sortById (g.filter (fun r => (childrenIndex g r.identifier).isEmpty))

/-- Modelled from the spec: the branch-points operation (section 4.1):
revisions with more than one child in the children index, in ascending
identifier order. -/
def branch_points (g : List Revision) : List Revision :=
  sortById (g.filter (fun r => 1 < (childrenIndex g r.identifier).length))

/-- An engine failure (spec section 7); the walk and generate_revision
models below only ever raise notAHead. -/
inductive EngineError where
  | notAHead (offending : String)
deriving DecidableEq, Repr

/-- Modelled from the spec: generate_revision (section 4.1).  With
splice false every listed parent must still be a head, otherwise the
operation fails with NotAHeadError naming the offending parent; a new
branch label unknown to the graph re-parents the revision to the global
base (it becomes a root), the deliberate independent-branch special
case. -/
def generate_revision (g : List Revision) (newId message : String)
    (parents dependsOn branchLabels : List String) (splice : Bool) :
    Except EngineError Revision :=
  match (if splice then Option.none else parents.find? (fun p => hasChild g p)) with
  | some p => .error (.notAHead p)
  | Option.none =>
    let parents2 :=
      if branchLabels.any (fun b => !(branchKnown g b)) then [] else parents
    .ok { identifier := newId, message := message, parents := parents2,
          dependsOn := dependsOn, labels := branchLabels, path := "" }

/-- Whether every prerequisite of r is already among the emitted
identifiers: such a revision may be emitted next by the walk. -/
def isReady (done : List String) (r : Revision) : Bool :=
  (edgeTargets r).all (fun p => done.contains p)

/-- The deterministic tie-break of the spec: among the ready revisions
the one with the least identifier is emitted first. -/
def pickMinId : List Revision → Option Revision
  | [] => Option.none
  | r :: rs =>
    some (rs.foldl (fun a b => if b.identifier < a.identifier then b else a) r)

/-- One emission step at a time, with fuel: emit the least ready
revision, remove it from the remaining set, repeat. -/
def walkAux : Nat → List Revision → List Revision → List Revision
  | 0, _, acc => acc
  | fuel + 1, remaining, acc =>
    match pickMinId (remaining.filter (isReady (ids acc))) with
    | Option.none => acc
    | some r => walkAux fuel (remaining.erase r) (acc ++ [r])

/-- Modelled from the spec: walk(graph, base, heads) (section 4.1).
From the virtual base to all heads the symmetric difference of the two
ancestor closures is the whole revision set, so the walk is a
topological sort of the graph respecting parent and dependency edges,
ties broken by ascending identifier. -/
def walk (g : List Revision) : List Revision := walkAux g.length g []

/-- Topological soundness of an emission order, checked left to right:
every prerequisite of each revision has already been emitted when the
revision appears. -/
def topoOk (done : List String) : List Revision → Bool
  | [] => true
  | r :: rest => isReady done r && topoOk (done ++ [r.identifier]) rest

/-- The fold used by pickMinId yields its seed or one of the list
elements. -/
theorem foldl_pick_mem (rs : List Revision) (a : Revision) :
    rs.foldl (fun a b => if b.identifier < a.identifier then b else a) a = a ∨
    rs.foldl (fun a b => if b.identifier < a.identifier then b else a) a ∈ rs := by
  induction rs generalizing a with
  | nil => exact Or.inl rfl
  | cons x xs ih =>
    simp only [List.foldl_cons]
    by_cases hc : x.identifier < a.identifier
    · rw [if_pos hc]
      rcases ih x with h | h
      · rw [h]; exact Or.inr (List.mem_cons_self x xs)
      · exact Or.inr (List.mem_cons_of_mem _ h)
    · rw [if_neg hc]
      rcases ih a with h | h
      · exact Or.inl h
      · exact Or.inr (List.mem_cons_of_mem _ h)

/-- A revision selected by pickMinId belongs to the candidate list. -/
theorem pickMinId_mem {l : List Revision} {r : Revision}
    (h : pickMinId l = some r) : r ∈ l := by
  cases l with
  | nil => simp [pickMinId] at h
  | cons x xs =>
    simp only [pickMinId, Option.some.injEq] at h
    rcases foldl_pick_mem xs x with h2 | h2
    · rw [← h, h2]; exact List.mem_cons_self x xs
    · rw [← h]; exact List.mem_cons_of_mem _ h2

/-- pickMinId succeeds on any nonempty list. -/
theorem pickMinId_isSome {l : List Revision} (h : l ≠ []) :
    ∃ r, pickMinId l = some r := by
  cases l with
  | nil => exact absurd rfl h
  | cons x xs => exact ⟨_, rfl⟩

/-- In an acyclic graph every nonempty subset of revisions contains one
whose prerequisites all lie outside the subset. -/
theorem exists_unblocked (g : List Revision)
    (hacy : ∀ r, ¬ Relation.TransGen (EdgeIn g) r r) :
    ∀ n (S : List Revision), S.length ≤ n → S ≠ [] → (∀ x ∈ S, x ∈ g) →
      ∃ r, r ∈ S ∧ ∀ y ∈ S, y.identifier ∉ edgeTargets r := by
  intro n
  induction n with
  | zero =>
    intro S hlen hne _
    cases S with
    | nil => exact absurd rfl hne
    | cons a as => simp at hlen
  | succ n ih =>
    intro S hlen hne hsub
    cases S with
    | nil => exact absurd rfl hne
    | cons r S0 =>
      classical
      by_cases hr : ∀ y ∈ r :: S0, y.identifier ∉ edgeTargets r
      · exact ⟨r, List.mem_cons_self _ _, hr⟩
      · have hrg : r ∈ g := hsub r (List.mem_cons_self _ _)
        have hlen0 : S0.length ≤ n := by
          simp only [List.length_cons] at hlen
          omega
        obtain ⟨S', hS'⟩ :
            ∃ S', S' = S0.filter (fun y => decide (Relation.TransGen (EdgeIn g) r y)) :=
          ⟨_, rfl⟩
        have hmemS' : ∀ y, y ∈ S' ↔ y ∈ S0 ∧ Relation.TransGen (EdgeIn g) r y := by
          intro y
          rw [hS', List.mem_filter]
          exact and_congr_right fun _ => by rw [decide_eq_true_eq]
        have hsub' : ∀ x ∈ S', x ∈ g :=
          fun x hx => hsub x (List.mem_cons_of_mem _ ((hmemS' x).mp hx).1)
        have hlen' : S'.length ≤ n := by
          rw [hS']
          exact le_trans (List.length_filter_le _ _) hlen0
        have hinS0 : ∀ y, y ∈ r :: S0 → Relation.TransGen (EdgeIn g) r y → y ∈ S0 := by
          intro y hy ht
          rcases List.mem_cons.mp hy with h | h
          · exact absurd (h ▸ ht) (hacy r)
          · exact h
        have hne' : S' ≠ [] := by
          push_neg at hr
          obtain ⟨y, hy, hyt⟩ := hr
          have hyg : y ∈ g := hsub y hy
          have htg : Relation.TransGen (EdgeIn g) r y :=
            Relation.TransGen.single ⟨hrg, hyg, hyt⟩
          exact List.ne_nil_of_mem ((hmemS' y).mpr ⟨hinS0 y hy htg, htg⟩)
        obtain ⟨m, hmS', hmmin⟩ := ih S' hlen' hne' hsub'
        have hrm : Relation.TransGen (EdgeIn g) r m := ((hmemS' m).mp hmS').2
        refine ⟨m, List.mem_cons_of_mem _ ((hmemS' m).mp hmS').1, ?_⟩
        intro y hy hyt
        have hyg : y ∈ g := hsub y hy
        have hmg : m ∈ g := hsub' m hmS'
        have hry : Relation.TransGen (EdgeIn g) r y :=
          Relation.TransGen.tail hrm ⟨hmg, hyg, hyt⟩
        exact hmmin y ((hmemS' y).mpr ⟨hinS0 y hy hry, hry⟩) hyt

/-- Appending a revision whose prerequisites are all already emitted
preserves topological soundness. -/
theorem topoOk_append {d : List String} {l : List Revision} {r : Revision}
    (h : topoOk d l = true) (hr : isReady (d ++ ids l) r = true) :
    topoOk d (l ++ [r]) = true := by
  induction l generalizing d with
  | nil =>
    simp only [ids, List.map_nil, List.append_nil] at hr
    rw [List.nil_append]
    simp only [topoOk, Bool.and_eq_true]
    exact ⟨hr, trivial⟩
  | cons x xs ih =>
    simp only [topoOk, Bool.and_eq_true] at h
    have hr' : isReady ((d ++ [x.identifier]) ++ ids xs) r = true := by
      have : d ++ ids (x :: xs) = (d ++ [x.identifier]) ++ ids xs := by
        simp only [ids, List.map_cons]
        rw [List.append_cons]
      rw [← this]; exact hr
    simp only [List.cons_append, topoOk, Bool.and_eq_true]
    exact ⟨h.1, ih h.2 hr'⟩

/-- Invariant argument for the walk: as long as the remaining revisions
are part of the validated graph and together with the emitted prefix
form a permutation of it, the walk consumes everything and stays
topologically sound. -/
theorem walkAux_ok (g : List Revision) (hv : Validated g) :
    ∀ fuel remaining acc, remaining.length ≤ fuel →
      (∀ x ∈ remaining, x ∈ g) →
      (acc ++ remaining).Perm g →
      topoOk [] acc = true →
      (walkAux fuel remaining acc).Perm g ∧
        topoOk [] (walkAux fuel remaining acc) = true := by
  intro fuel
  induction fuel with
  | zero =>
    intro remaining acc hlen _ hperm hacc
    have hnil : remaining = [] := List.length_eq_zero.mp (Nat.le_zero.mp hlen)
    subst hnil
    rw [List.append_nil] at hperm
    exact ⟨hperm, hacc⟩
  | succ fuel ih =>
    intro remaining acc hlen hsub hperm hacc
    by_cases hrem : remaining = []
    · subst hrem
      rw [List.append_nil] at hperm
      simpa [walkAux, pickMinId] using ⟨hperm, hacc⟩
    · obtain ⟨m, hmS, hmmin⟩ :=
        exists_unblocked g hv.acyclic remaining.length remaining le_rfl hrem hsub
      have hmg : m ∈ g := hsub m hmS
      have hmready : isReady (ids acc) m = true := by
        rw [isReady, List.all_eq_true]
        intro p hp
        have hpg : p ∈ ids g := hv.closed m hmg p hp
        have hidsperm : (ids acc ++ ids remaining).Perm (ids g) := by
          have h2 := hperm.map Revision.identifier
          rw [List.map_append] at h2
          exact h2
        have hpmem : p ∈ ids acc ++ ids remaining := hidsperm.mem_iff.mpr hpg
        rcases List.mem_append.mp hpmem with h3 | h3
        · exact List.elem_iff.mpr h3
        · obtain ⟨y, hy, hyid⟩ := List.mem_map.mp h3
          exact absurd (hyid ▸ hp) (hmmin y hy)
      have hmfil : m ∈ remaining.filter (isReady (ids acc)) :=
        List.mem_filter.mpr ⟨hmS, hmready⟩
      obtain ⟨r, hrpick⟩ := pickMinId_isSome (List.ne_nil_of_mem hmfil)
      have hrfil := pickMinId_mem hrpick
      have hrS : r ∈ remaining := List.mem_of_mem_filter hrfil
      have hrready : isReady (ids acc) r = true := List.of_mem_filter hrfil
      have hstep :
          walkAux (fuel + 1) remaining acc =
            walkAux fuel (remaining.erase r) (acc ++ [r]) := by
        rw [walkAux, hrpick]
      rw [hstep]
      apply ih
      · rw [List.length_erase_of_mem hrS]
        have : remaining.length ≤ fuel + 1 := hlen
        have hpos : 0 < remaining.length := List.length_pos.mpr hrem
        omega
      · exact fun x hx => hsub x (List.mem_of_mem_erase hx)
      · have h1 : (r :: remaining.erase r).Perm remaining :=
          (List.perm_cons_erase hrS).symm
        have h2 : (acc ++ [r]) ++ remaining.erase r = acc ++ (r :: remaining.erase r) := by
          rw [List.append_assoc, List.singleton_append]
        rw [h2]
        exact (h1.append_left acc).trans hperm
      · exact topoOk_append hacc (by simpa using hrready)

/-- Helper for concrete witnesses: a rank function that strictly drops
along every prerequisite edge rules out cycles. -/
theorem acyclic_of_rank (g : List Revision) (rank : Revision → Nat)
    (h : ∀ x y, EdgeIn g x y → rank y < rank x) :
    ∀ r, ¬ Relation.TransGen (EdgeIn g) r r := by
  have mono : ∀ a b, Relation.TransGen (EdgeIn g) a b → rank b < rank a := by
    intro a b hab
    induction hab with
    | single h1 => exact h _ _ h1
    | tail _ h2 ih => exact lt_trans (h _ _ h2) ih
  exact fun r hr => lt_irrefl _ (mono r r hr)

/-- Inserting into a list is a permutation of consing. -/
theorem insertById_perm (r : Revision) (l : List Revision) :
    (insertById r l).Perm (r :: l) := by
  induction l with
  | nil => exact List.Perm.refl _
  | cons x xs ih =>
    rw [insertById]
    by_cases h : r.identifier ≤ x.identifier
    · rw [if_pos h]
    · rw [if_neg h]
      exact (ih.cons x).trans (List.Perm.swap r x xs)

/-- sortById permutes its input. -/
theorem sortById_perm (l : List Revision) : (sortById l).Perm l := by
  induction l with
  | nil => exact List.Perm.refl _
  | cons x xs ih => exact (insertById_perm x (sortById xs)).trans (ih.cons x)

/-- Insertion preserves ascending identifier order. -/
theorem insertById_sorted {l : List Revision} (r : Revision)
    (h : l.Pairwise (fun a b => a.identifier ≤ b.identifier)) :
    (insertById r l).Pairwise (fun a b => a.identifier ≤ b.identifier) := by
  induction l with
  | nil => simp [insertById]
  | cons x xs ih =>
    rw [insertById]
    rcases List.pairwise_cons.mp h with ⟨hx, hxs⟩
    by_cases hc : r.identifier ≤ x.identifier
    · rw [if_pos hc]
      refine List.pairwise_cons.mpr ⟨?_, h⟩
      intro b hb
      rcases List.mem_cons.mp hb with rfl | hb
      · exact hc
      · exact le_trans hc (hx b hb)
    · rw [if_neg hc]
      refine List.pairwise_cons.mpr ⟨?_, ih hxs⟩
      intro b hb
      rcases List.mem_cons.mp ((insertById_perm r xs).mem_iff.mp hb) with rfl | hb2
      · exact le_of_not_le hc
      · exact hx b hb2

/-- sortById sorts ascending by identifier. -/
theorem sortById_sorted (l : List Revision) :
    (sortById l).Pairwise (fun a b => a.identifier ≤ b.identifier) := by
  induction l with
  | nil => simp [sortById]
  | cons x xs ih => exact insertById_sorted x ih

/-- Membership is unchanged by sortById. -/
theorem sortById_mem {l : List Revision} {r : Revision} :
    r ∈ sortById l ↔ r ∈ l := (sortById_perm l).mem_iff

/-- C1: on every validated revision graph the walk from base to heads
emits a permutation of the graph in which every revision occurs exactly
once, and the emission order is topologically sound: each revision comes
only after all of its parents and all of its dependencies. -/
theorem walk_visits_all_once_topologically (g : List Revision) (r : Revision)
    (hv : Validated g) (hr : r ∈ g) :
    (walk g).Perm g ∧ (walk g).count r = 1 ∧ topoOk [] (walk g) = true := by
  obtain ⟨hperm, htopo⟩ :=
    walkAux_ok g hv g.length g [] le_rfl (fun x hx => hx)
      (by simp) rfl
  refine ⟨hperm, ?_, htopo⟩
  have hnd : g.Nodup := List.Nodup.of_map _ hv.nodupIds
  rw [walk, hperm.count_eq]
  exact List.count_eq_one_of_mem hnd hr

/-- Concrete three-revision graph used by the witnesses: a root and two
children, hence two heads and one branch point. -/
def r1W : Revision :=
  { identifier := "r1", message := "root", parents := [],
    dependsOn := [], labels := [], path := "" }

/-- Second witness revision: a child of the root. -/
def r2W : Revision :=
  { identifier := "r2", message := "left", parents := ["r1"],
    dependsOn := [], labels := [], path := "" }

/-- Third witness revision: another child of the root. -/
def r3W : Revision :=
  { identifier := "r3", message := "right", parents := ["r1"],
    dependsOn := [], labels := [], path := "" }

/-- The witness graph. -/
def gW : List Revision := [r1W, r2W, r3W]

/-- A rank function witnessing that the witness graph is acyclic. -/
def rankW : Revision → Nat := fun r => if r.identifier = "r1" then 0 else 1

/-- The witness graph is a validated graph. -/
theorem gW_validated : Validated gW := by
  refine ⟨by decide, by decide, acyclic_of_rank gW rankW ?_⟩
  intro x y hxy
  obtain ⟨hx, hy, he⟩ := hxy
  simp only [gW, List.mem_cons, List.not_mem_nil, or_false] at hx hy
  rcases hx with rfl | rfl | rfl <;> rcases hy with rfl | rfl | rfl <;>
    revert he <;> decide

/-- Witness for C1: the walk of the concrete validated graph gW emits
every revision once and topologically. -/
theorem walk_visits_all_once_topologically_witness :
    (walk gW).Perm gW ∧ (walk gW).count r2W = 1 ∧ topoOk [] (walk gW) = true :=
  walk_visits_all_once_topologically gW r2W gW_validated (by decide)

/-- A pid has an empty children index exactly when no revision of the
graph lists it among its parents. -/
theorem childrenIndex_isEmpty_iff (g : List Revision) (pid : String) :
    (childrenIndex g pid).isEmpty = true ↔ ¬∃ x ∈ g, pid ∈ x.parents := by
  rw [childrenIndex, ids, List.isEmpty_iff, List.map_eq_nil_iff, List.filter_eq_nil_iff]
  constructor
  · rintro h ⟨x, hx, hpx⟩
    exact h x hx (List.elem_iff.mpr hpx)
  · intro h x hx hpx
    exact h ⟨x, hx, List.elem_iff.mp hpx⟩

/-- A pid occurs among the flattened parent references exactly when some
revision lists it among its parents. -/
theorem parentRefs_contains_iff (g : List Revision) (pid : String) :
    (parentRefs g).contains pid = true ↔ ∃ x ∈ g, pid ∈ x.parents := by
  rw [parentRefs]
  constructor
  · intro h
    obtain ⟨l, hl, hpl⟩ := List.mem_flatten.mp (List.elem_iff.mp h)
    obtain ⟨x, hx, rfl⟩ := List.mem_map.mp hl
    exact ⟨x, hx, hpl⟩
  · rintro ⟨x, hx, hpx⟩
    exact List.elem_iff.mpr
      (List.mem_flatten.mpr ⟨x.parents, List.mem_map_of_mem _ hx, hpx⟩)

/-- C7: on every validated graph heads with resolve_dependencies true
and heads with resolve_dependencies false return the identical sequence
of revisions, and that sequence consists exactly of the parent-chain
leaves (revisions with an empty children index); the dependency edges
make no difference to the leaf set, they only order the walk, which
always respects them. -/
theorem heads_resolve_dependencies_same (g : List Revision) (r : Revision)
    (_hv : Validated g) :
    heads g true = heads g false ∧
      (r ∈ heads g false ↔ r ∈ g ∧ childrenIndex g r.identifier = []) := by
  have hcongr : ∀ x ∈ g,
      (!((parentRefs g).contains x.identifier)) =
        (childrenIndex g x.identifier).isEmpty := by
    intro x _
    have h1 := parentRefs_contains_iff g x.identifier
    have h2 := childrenIndex_isEmpty_iff g x.identifier
    by_cases hex : ∃ y ∈ g, x.identifier ∈ y.parents
    · have hc : (parentRefs g).contains x.identifier = true := h1.mpr hex
      have he : (childrenIndex g x.identifier).isEmpty = false := by
        cases h : (childrenIndex g x.identifier).isEmpty
        · rfl
        · exact absurd hex (h2.mp h)
      rw [hc, he]
      rfl
    · have hc : (parentRefs g).contains x.identifier = false := by
        cases h : (parentRefs g).contains x.identifier
        · rfl
        · exact absurd (h1.mp h) hex
      have he : (childrenIndex g x.identifier).isEmpty = true := h2.mpr hex
      rw [hc, he]
      rfl
  constructor
  · show sortById (g.filter fun x => !((parentRefs g).contains x.identifier)) =
        sortById (g.filter fun x => (childrenIndex g x.identifier).isEmpty)
    exact congrArg sortById (List.filter_congr hcongr)
  · show r ∈ sortById (g.filter fun x => (childrenIndex g x.identifier).isEmpty) ↔ _
    rw [sortById_mem, List.mem_filter]
    constructor
    · rintro ⟨hg, hp⟩
      exact ⟨hg, List.isEmpty_iff.mp hp⟩
    · rintro ⟨hg, hp⟩
      exact ⟨hg, List.isEmpty_iff.mpr hp⟩

/-- Witness for C7 at the concrete validated graph gW. -/
theorem heads_resolve_dependencies_same_witness :
    heads gW true = heads gW false ∧
      (r2W ∈ heads gW false ↔ r2W ∈ gW ∧ childrenIndex gW r2W.identifier = []) :=
  heads_resolve_dependencies_same gW r2W gW_validated

/-- The identifiers of a sorted filter of a duplicate-free graph stay
duplicate-free. -/
theorem sortById_filter_map_nodup (g : List Revision) (p : Revision → Bool)
    (hnd : (ids g).Nodup) :
    ((sortById (g.filter p)).map Revision.identifier).Nodup := by
  have h1 : ((g.filter p).map Revision.identifier).Nodup :=
    List.Nodup.sublist (List.Sublist.map _ (List.filter_sublist _)) hnd
  exact (((sortById_perm (g.filter p)).map Revision.identifier).nodup_iff).mpr h1

/-- On a duplicate-free graph a sorted filter is strictly ascending by
identifier. -/
theorem sortById_filter_strict (g : List Revision) (p : Revision → Bool)
    (hnd : (ids g).Nodup) :
    (sortById (g.filter p)).Pairwise (fun a b => a.identifier < b.identifier) := by
  have hle := sortById_sorted (g.filter p)
  have hne : (sortById (g.filter p)).Pairwise (fun a b => a.identifier ≠ b.identifier) :=
    List.pairwise_map.mp (sortById_filter_map_nodup g p hnd)
  exact List.Pairwise.imp₂ (fun _ _ h1 h2 => lt_of_le_of_ne h1 h2) hle hne

/-- C8: on every validated graph the branch-points sequence contains
exactly the revisions with more than one child, is strictly ascending by
identifier, and is a deterministic function of the graph contents: any
permutation of the same revisions yields the identical identifier
sequence. -/
theorem branch_points_exact_sorted_deterministic (g g' : List Revision)
    (r : Revision) (hv : Validated g) (hperm : g.Perm g') :
    (r ∈ branch_points g ↔ r ∈ g ∧ 1 < (childrenIndex g r.identifier).length) ∧
      (branch_points g).Pairwise (fun a b => a.identifier < b.identifier) ∧
      (branch_points g).map Revision.identifier =
        (branch_points g').map Revision.identifier := by
  refine ⟨?_, ?_, ?_⟩
  · rw [branch_points, sortById_mem, List.mem_filter]
    constructor
    · rintro ⟨hg, hp⟩
      exact ⟨hg, of_decide_eq_true hp⟩
    · rintro ⟨hg, hp⟩
      exact ⟨hg, decide_eq_true hp⟩
  · exact sortById_filter_strict g _ hv.nodupIds
  · have hlen : ∀ pid, (childrenIndex g' pid).length = (childrenIndex g pid).length := by
      intro pid
      rw [childrenIndex, childrenIndex, ids, ids, List.length_map, List.length_map,
        ← List.countP_eq_length_filter, ← List.countP_eq_length_filter]
      exact ((hperm.countP_eq _)).symm
    have hpeq : (fun x : Revision => decide (1 < (childrenIndex g' x.identifier).length)) =
        (fun x : Revision => decide (1 < (childrenIndex g x.identifier).length)) := by
      funext x
      rw [hlen]
    have hbp' : branch_points g' =
        sortById (g'.filter (fun x => decide (1 < (childrenIndex g x.identifier).length))) := by
      rw [branch_points, hpeq]
    have hpermf :
        (g.filter (fun x => decide (1 < (childrenIndex g x.identifier).length))).Perm
          (g'.filter (fun x => decide (1 < (childrenIndex g x.identifier).length))) :=
      hperm.filter _
    have hperm2 :
        (branch_points g).Perm
          (sortById (g'.filter (fun x => decide (1 < (childrenIndex g x.identifier).length)))) := by
      rw [branch_points]
      exact ((sortById_perm _).trans hpermf).trans (sortById_perm _).symm
    have hidperm :
        ((branch_points g).map Revision.identifier).Perm
          ((branch_points g').map Revision.identifier) := by
      rw [hbp']
      exact hperm2.map _
    have hnd' : (ids g').Nodup := ((hperm.map Revision.identifier).nodup_iff).mp hv.nodupIds
    have hs1 : ((branch_points g).map Revision.identifier).Pairwise (· < ·) := by
      rw [branch_points]
      exact List.pairwise_map.mpr (sortById_filter_strict g _ hv.nodupIds)
    have hs2 : ((branch_points g').map Revision.identifier).Pairwise (· < ·) := by
      rw [hbp']
      exact List.pairwise_map.mpr (sortById_filter_strict g' _ hnd')
    haveI : IsAntisymm String (· < ·) := ⟨fun _ _ h1 h2 => absurd h2 (lt_asymm h1)⟩
    exact List.eq_of_perm_of_sorted hidperm hs1 hs2

/-- Witness for C8 at the concrete validated graph gW (compared with
itself as its own permutation). -/
theorem branch_points_exact_sorted_deterministic_witness :
    (r1W ∈ branch_points gW ↔
        r1W ∈ gW ∧ 1 < (childrenIndex gW r1W.identifier).length) ∧
      (branch_points gW).Pairwise (fun a b => a.identifier < b.identifier) ∧
      (branch_points gW).map Revision.identifier =
        (branch_points gW).map Revision.identifier :=
  branch_points_exact_sorted_deterministic gW gW r1W gW_validated (List.Perm.refl gW)

/-- C6: a non-splice revision creation whose listed parents include one
that already has a child fails with NotAHeadError naming an offending
parent, and conversely a successful non-splice creation certifies that
every listed parent was still a head. -/
theorem generate_revision_not_a_head (g : List Revision) (newId message : String)
    (parents dependsOn branchLabels : List String) :
    ((∃ p ∈ parents, hasChild g p = true) →
      ∃ q ∈ parents, hasChild g q = true ∧
        generate_revision g newId message parents dependsOn branchLabels false =
          .error (.notAHead q)) ∧
    (∀ r, generate_revision g newId message parents dependsOn branchLabels false = .ok r →
      ∀ p ∈ parents, hasChild g p = false) := by
  constructor
  · intro hex
    have hsome : (parents.find? (fun p => hasChild g p)).isSome := by
      rw [List.find?_isSome]
      obtain ⟨p, hp, hc⟩ := hex
      exact ⟨p, hp, hc⟩
    obtain ⟨q, hq⟩ := Option.isSome_iff_exists.mp hsome
    refine ⟨q, List.mem_of_find?_eq_some hq, List.find?_some hq, ?_⟩
    rw [generate_revision, if_neg Bool.false_ne_true, hq]
  · intro r hok p hp
    by_contra hc
    rw [Bool.not_eq_false] at hc
    have hsome : (parents.find? (fun p => hasChild g p)).isSome := by
      rw [List.find?_isSome]
      exact ⟨p, hp, hc⟩
    obtain ⟨q, hq⟩ := Option.isSome_iff_exists.mp hsome
    rw [generate_revision, if_neg Bool.false_ne_true, hq] at hok
    simp at hok

/-- Witness for C6: in gW the root r1 already has children, so a
non-splice revision on parent r1 fails with NotAHeadError. -/
theorem generate_revision_not_a_head_witness :
    generate_revision gW "r4" "m" ["r1"] [] [] false =
      .error (.notAHead "r1") := by
  obtain ⟨q, hq, _, he⟩ :=
    (generate_revision_not_a_head gW "r4" "m" ["r1"] [] []).1
      ⟨"r1", by decide, by decide⟩
  have hq1 : q = "r1" := by simpa using hq
  rw [hq1] at he
  exact he

/-- The only error an isinstance test against string_types can raise is
the NameError for string_types. -/
theorem isinstanceStr_error {env : List String} {v : PyVal} {e : PyErr}
    (h : isinstanceStr env v = .error e) : e = .nameError "string_types" := by
  rw [isinstanceStr] at h
  by_cases hc : env.contains "string_types" = true
  · rw [if_pos hc] at h
    exact Except.noConfusion h
  · rw [if_neg hc] at h
    exact (Except.error.inj h).symm

/-- The only error the getattr comprehension can raise is TypeError. -/
theorem iterRevs_error {v : PyVal} {e : PyErr}
    (h : iterRevs v = .error e) : e = .typeError := by
  cases v with
  | list xs => exact Except.noConfusion h
  | tuple xs => exact Except.noConfusion h
  | none => exact (Except.error.inj h).symm
  | bool b => exact (Except.error.inj h).symm
  | int n => exact (Except.error.inj h).symm
  | str s => exact (Except.error.inj h).symm
  | obj o => exact (Except.error.inj h).symm

/-- The only error the comma join can raise is TypeError. -/
theorem joinStrs_error {xs : List PyVal} {e : PyErr}
    (h : joinStrs xs = .error e) : e = .typeError := by
  rw [joinStrs] at h
  split at h
  · exact Except.noConfusion h
  · exact (Except.error.inj h).symm

/-- The only errors of the revisions normalization of merge are the
string_types NameError and TypeError. -/
theorem mergeRevisionsNorm_error {env : List String} {revisions : PyVal} {e : PyErr}
    (h : Alembic.mergeRevisionsNorm env revisions = .error e) :
    e = .nameError "string_types" ∨ e = .typeError := by
  rw [Alembic.mergeRevisionsNorm] at h
  split at h
  · exact Except.noConfusion h
  · split at h
    · rename_i e2 heq
      exact Or.inl ((Except.error.inj h).symm.trans (isinstanceStr_error heq))
    · exact Except.noConfusion h
    · exact Or.inr (iterRevs_error h)

/-- The only error of the message normalization of merge is TypeError. -/
theorem mergeMessageNorm_error {revs : List PyVal} {message : PyVal} {e : PyErr}
    (h : Alembic.mergeMessageNorm revs message = .error e) : e = .typeError := by
  rw [Alembic.mergeMessageNorm] at h
  split at h
  · split at h
    · rename_i e2 heq
      exact (Except.error.inj h).symm.trans (joinStrs_error heq)
    · exact Except.noConfusion h
  · exact Except.noConfusion h

/-- Every error surfacing from Alembic.merge is either the NameError for
string_types or a TypeError: the source has no other failure mode and in
particular no arity check on the number of revisions merged. -/
theorem merge_error_shape {env : List String} {revisions message label : PyVal}
    {e : PyErr} (h : Alembic.merge env revisions message label = .error e) :
    e = .nameError "string_types" ∨ e = .typeError := by
  rw [Alembic.merge] at h
  split at h
  · rename_i e1 heq
    rw [(Except.error.inj h).symm]
    exact mergeRevisionsNorm_error heq
  · split at h
    · rename_i e1 heq
      rw [(Except.error.inj h).symm]
      exact Or.inr (mergeMessageNorm_error heq)
    · split at h
      · rename_i e1 heq
        rw [(Except.error.inj h).symm]
        exact Or.inl (isinstanceStr_error heq)
      · exact Except.noConfusion h

/-- In the namespace of the module as written, every isinstance test
against string_types raises the NameError for string_types. -/
theorem isinstanceStr_moduleNames (v : PyVal) :
    isinstanceStr moduleNames v = .error (.nameError "string_types") := by
  rw [isinstanceStr, if_neg (by decide)]

/-- Under the module namespace, merge always raises the string_types
NameError, whatever its arguments. -/
theorem merge_always_nameError (revisions message label : PyVal) :
    Alembic.merge moduleNames revisions message label =
      .error (.nameError "string_types") := by
  by_cases ht : pyTruthy revisions = false
  · have h1 : Alembic.mergeRevisionsNorm moduleNames revisions =
        .ok [PyVal.str "heads"] := by
      rw [Alembic.mergeRevisionsNorm, if_pos ht]
    by_cases hm : isNone message = true
    · have h2 : Alembic.mergeMessageNorm [PyVal.str "heads"] message =
          .ok (PyVal.str ("merge " ++ "heads")) := by
        rw [Alembic.mergeMessageNorm, if_pos hm]
        rfl
      rw [Alembic.merge]
      simp only [h1, h2, isinstanceStr_moduleNames]
    · have h2 : Alembic.mergeMessageNorm [PyVal.str "heads"] message =
          .ok message := by
        rw [Alembic.mergeMessageNorm, if_neg hm]
      rw [Alembic.merge]
      simp only [h1, h2, isinstanceStr_moduleNames]
  · have h1 : Alembic.mergeRevisionsNorm moduleNames revisions =
        .error (.nameError "string_types") := by
      rw [Alembic.mergeRevisionsNorm, if_neg ht, isinstanceStr_moduleNames]
    rw [Alembic.merge]
    simp only [h1]

/-- Under the module namespace, the parent normalization of revision
raises the string_types NameError for the default parent argument. -/
theorem parentNorm_default_nameError :
    Alembic.parentNorm moduleNames (PyVal.str "head") =
      .error (.nameError "string_types") := by
  rw [Alembic.parentNorm, if_neg (by decide), isinstanceStr_moduleNames]

/-- C2: the names string_types and current_app are not defined in the
module namespace; consequently, under that namespace, every invocation
of merge raises NameError for string_types, and so does every invocation
of revision with its default arguments (empty False, branch default,
parent head, splice False, no depend, no label, no path): neither ever
reaches its generate_revision call, so no revision is created. -/
theorem merge_and_revision_raise_nameError
    (revisions message label : PyVal) (branchExists : Bool)
    (branchPathCfg : Option String) (scriptDir rootPath : String)
    (revEnv : Bool) (mig : Except PyErr Unit) (m : String) :
    moduleNames.contains "string_types" = false ∧
    moduleNames.contains "current_app" = false ∧
    Alembic.merge moduleNames revisions message label =
      .error (.nameError "string_types") ∧
    Alembic.revision moduleNames branchExists branchPathCfg scriptDir rootPath
        revEnv mig m false "default" (PyVal.str "head") false PyVal.none
        PyVal.none PyVal.none =
      .error (.nameError "string_types") := by
  refine ⟨by decide, by decide, merge_always_nameError revisions message label, ?_⟩
  rw [Alembic.revision]
  simp only [parentNorm_default_nameError]

/-- C3 counterexample: merging a single revision under the module as
written does not fail with the insufficient-revisions error of the spec;
it raises NameError for string_types (and would perform no arity check
even with that name defined). -/
theorem merge_single_revision_counterexample :
    Alembic.merge moduleNames (PyVal.list [PyVal.str "r1"]) PyVal.none PyVal.none =
      .error (.nameError "string_types") ∧
    Alembic.merge moduleNames (PyVal.list [PyVal.str "r1"]) PyVal.none PyVal.none ≠
      .error .insufficientRevisions := by
  have h1 : Alembic.merge moduleNames (PyVal.list [PyVal.str "r1"]) PyVal.none
      PyVal.none = .error (.nameError "string_types") :=
    merge_always_nameError _ _ _
  refine ⟨h1, ?_⟩
  rw [h1]
  simp

/-- The getattr comprehension is the identity on a list of strings. -/
theorem map_getattr_strs (ss : List String) :
    (ss.map PyVal.str).map getattrRevision = ss.map PyVal.str := by
  induction ss with
  | nil => rfl
  | cons a as ih =>
    simp only [List.map_cons, ih]
    rfl

/-- C3 amended: the source merge has no minimum-revision check: no
invocation can fail with the insufficient-revisions error of the spec;
and whenever string_types resolves, a nonempty list of revision
identifiers of any length, a single one included, is passed in the given
order as the parents of the revision to create. -/
theorem merge_no_arity_check (env : List String) (revisions message label : PyVal)
    (rs : List String) (m : String) :
    Alembic.merge env revisions message label ≠ .error .insufficientRevisions ∧
    ("string_types" ∈ env → rs ≠ [] →
      Alembic.merge env (PyVal.list (rs.map PyVal.str)) (PyVal.str m) PyVal.none =
        .ok { head := rs.map PyVal.str, message := PyVal.str m,
              branch_labels := PyVal.none }) := by
  constructor
  · intro h
    rcases merge_error_shape h with h1 | h1 <;> exact PyErr.noConfusion h1
  · intro henv hne
    have hiso : ∀ v, isinstanceStr env v = .ok (isStrB v) := fun v => by
      rw [isinstanceStr, if_pos (List.elem_iff.mpr henv)]
    have h1 : Alembic.mergeRevisionsNorm env (PyVal.list (rs.map PyVal.str)) =
        .ok (rs.map PyVal.str) := by
      have htr : pyTruthy (PyVal.list (rs.map PyVal.str)) = true := by
        simp [pyTruthy, List.isEmpty_iff, hne]
      rw [Alembic.mergeRevisionsNorm, if_neg (by simp [htr]), hiso]
      have h2 : isStrB (PyVal.list (rs.map PyVal.str)) = false := rfl
      rw [h2]
      show iterRevs (PyVal.list (rs.map PyVal.str)) = .ok (rs.map PyVal.str)
      rw [iterRevs, map_getattr_strs]
    have h2 : Alembic.mergeMessageNorm (rs.map PyVal.str) (PyVal.str m) =
        .ok (PyVal.str m) := by
      rw [Alembic.mergeMessageNorm, if_neg (by simp [isNone])]
    rw [Alembic.merge]
    simp only [h1, h2, hiso]
    rfl

/-- Witness for the amended C3: with string_types defined, merging the
single revision r1 succeeds and passes r1 as the only parent. -/
theorem merge_no_arity_check_witness :
    ("string_types" ∈ "string_types" :: moduleNames) ∧
      (["r1"] ≠ ([] : List String)) ∧
      Alembic.merge ("string_types" :: moduleNames)
          (PyVal.list (["r1"].map PyVal.str)) (PyVal.str "m") PyVal.none =
        .ok { head := ["r1"].map PyVal.str, message := PyVal.str "m",
              branch_labels := PyVal.none } :=
  ⟨List.mem_cons_self _ _, by decide,
    (merge_no_arity_check ("string_types" :: moduleNames) PyVal.none PyVal.none
        PyVal.none ["r1"] "m").2 (List.mem_cons_self _ _) (by decide)⟩

/-- C4 counterexample: an already-negative integer downgrade target is
not rejected: the normalization passes -3 through unchanged and hands
the string -3 to the migration engine. -/
theorem downgrade_negative_counterexample :
    Alembic.downgradeTarget (PyVal.int (-3)) = .ok "-3" := rfl

/-- C4 amended: downgrade normalizes an integer target as N steps back:
a positive t becomes -t and a non-positive t, zero included, is passed
through unchanged; both are stringified, and no integer target is
rejected. -/
theorem downgrade_int_normalization (n : Int) :
    (0 < n → Alembic.downgradeTarget (PyVal.int n) = .ok (toString (-n))) ∧
    (n ≤ 0 → Alembic.downgradeTarget (PyVal.int n) = .ok (toString n)) ∧
    (Alembic.downgradeTarget (PyVal.int n)).isOk = true := by
  refine ⟨?_, ?_, rfl⟩
  · intro hp
    show Except.ok (toString (if 0 < n then -n else n)) =
      Except.ok (toString (-n))
    rw [if_pos hp]
  · intro hnp
    show Except.ok (toString (if 0 < n then -n else n)) =
      Except.ok (toString n)
    rw [if_neg (not_lt.mpr hnp)]

/-- Witness for the amended C4 at the positive target two. -/
theorem downgrade_int_normalization_witness :
    (0 < (2 : Int)) ∧
      Alembic.downgradeTarget (PyVal.int 2) = .ok (toString (-(2 : Int))) :=
  ⟨by decide, (downgrade_int_normalization 2).1 (by decide)⟩

/-- C9: once run_migrations has connected and configured, the connection
it opened is closed on every outcome of the transaction and of the
migration function, success or exception alike. -/
theorem run_migrations_closes_connection (txn fn : Except PyErr Unit) :
    (Alembic.run_migrations (.ok ()) (.ok ()) txn fn).connectionOpened = true ∧
    (Alembic.run_migrations (.ok ()) (.ok ()) txn fn).connectionClosed = true :=
  ⟨rfl, rfl⟩

/-- C10: the constructor calls mkdir exactly when run_mkdir is the
boolean True object itself; every other value, the truthy integer one
included, skips directory creation. -/
theorem init_mkdir_identity_check (v : PyVal) :
    Alembic.initCallsMkdir (PyVal.bool true) = true ∧
    Alembic.initCallsMkdir (PyVal.int 1) = false ∧
    (v ≠ PyVal.bool true → Alembic.initCallsMkdir v = false) := by
  refine ⟨rfl, rfl, ?_⟩
  intro hv
  cases v with
  | bool b =>
    cases b with
    | true => exact absurd rfl hv
    | false => rfl
  | none => rfl
  | int n => rfl
  | str s => rfl
  | list xs => rfl
  | tuple xs => rfl
  | obj o => rfl

/-- Witness for C10: the truthy integer one is not the True object and
does not trigger mkdir. -/
theorem init_mkdir_identity_check_witness :
    (PyVal.int 1 ≠ PyVal.bool true) ∧
      Alembic.initCallsMkdir (PyVal.int 1) = false :=
  ⟨fun h => PyVal.noConfusion h,
    (init_mkdir_identity_check (PyVal.int 1)).2.2 fun h => PyVal.noConfusion h⟩

/-- A string with an absolute-path marker is nonempty. -/
theorem Alembic.isAbsPath_ne_empty {p : String} (h : Alembic.isAbsPath p = true) :
    p ≠ "" := by
  intro he
  subst he
  exact absurd h (by decide)

/-- A nonempty string is truthy. -/
theorem pyTruthy_str {p : String} (h : p ≠ "") :
    pyTruthy (PyVal.str p) = true := by
  simp [pyTruthy, h]

/-- With string_types defined, the parent normalization turns a list
into the list of getattr results. -/
theorem parentNorm_list (env : List String) (henv : "string_types" ∈ env)
    (xs : List PyVal) :
    Alembic.parentNorm env (PyVal.list xs) =
      .ok (.list (xs.map getattrRevision)) := by
  rw [Alembic.parentNorm, if_neg (by simp [isNone]),
    isinstanceStr, if_pos (List.elem_iff.mpr henv)]
  rfl

/-- With string_types defined, the label normalization keeps a list
label as it is. -/
theorem labelNorm_list (env : List String) (henv : "string_types" ∈ env)
    (xs : List PyVal) :
    Alembic.labelNorm env (PyVal.list xs) = .ok xs := by
  rw [Alembic.labelNorm, if_neg (by simp [isNone]),
    isinstanceStr, if_pos (List.elem_iff.mpr henv)]
  rfl

/-- A truthy given path short-circuits the branch-path lookup. -/
theorem branchPathLookup_truthy (env : List String) (cfg : Option String)
    {path : PyVal} (h : pyTruthy path = true) :
    Alembic.branchPathLookup env cfg path = .ok path := by
  rw [Alembic.branchPathLookup.eq_def, if_pos h]

/-- Evaluation of the independent-branch step on a list of parents and
a truthy path: with an unknown branch the parents become the base
one-tuple and the branch name is pushed onto the labels; with a known
branch the qualified parents and the labels pass through. -/
theorem branchStep_eval (env : List String) (branchExists : Bool)
    (cfg : Option String) (branch : String) (xs : List PyVal)
    (label1 : List PyVal) (path : PyVal) (hbr : branch ≠ "")
    (hp : pyTruthy path = true) :
    Alembic.branchStep env branchExists cfg branch (.list xs) label1 path =
      .ok (if branchExists
            then (.list (xs.map (qualifyItem branch)), label1, path)
            else (.tuple [PyVal.str "base"], PyVal.str branch :: label1, path)) := by
  rw [Alembic.branchStep, if_neg hbr]
  simp only [show qualifySeq branch (PySeq.list xs) =
      .ok (.list (xs.map (qualifyItem branch))) from rfl,
    branchPathLookup_truthy env cfg hp]
  cases branchExists <;> rfl

/-- An absolute path passes through path resolution unchanged. -/
theorem pathResolve_abs (env : List String) (rootPath : String) {p : String}
    (habs : Alembic.isAbsPath p = true) :
    Alembic.pathResolve env rootPath (PyVal.str p) = .ok (PyVal.str p) := by
  rw [Alembic.pathResolve, if_pos (pyTruthy_str (Alembic.isAbsPath_ne_empty habs))]
  have hcond : (Alembic.isAbsPath p || p.data.contains ':') = true := by
    rw [habs]
    rfl
  simp [hcond]
  intro hfalse _
  rw [habs] at hfalse
  exact Bool.noConfusion hfalse

/-- C5: in Alembic.revision with a nonempty branch name, parents given
as a list and an absolute path, when the branch has no existing revision
the parents handed to generate_revision are replaced by the global base
one-tuple and the branch name is prepended to the labels (the revision
becomes the root of an independent branch); when the branch already
exists the parents are kept as given, with base and head qualified to
the branch by qualifyItem. -/
theorem revision_independent_branch (env : List String) (branchExists : Bool)
    (branchPathCfg : Option String) (scriptDir rootPath : String)
    (revEnv : Bool) (mig : Except PyErr Unit) (m : String) (empty : Bool)
    (branch : String) (ps : List String) (splice : Bool) (depend : PyVal)
    (ls : List PyVal) (p : String)
    (henv : "string_types" ∈ env) (hbr : branch ≠ "")
    (habs : Alembic.isAbsPath p = true) (hmig : mig = .ok ()) :
    (branchExists = false →
      Alembic.revision env branchExists branchPathCfg scriptDir rootPath revEnv mig
          m empty branch (PyVal.list (ps.map PyVal.str)) splice depend
          (PyVal.list ls) (PyVal.str p) =
        .ok { message := m, head := .tuple [PyVal.str "base"], splice := splice,
              depends_on := depend, branch_labels := PyVal.str branch :: ls,
              version_path := PyVal.str p }) ∧
    (branchExists = true →
      Alembic.revision env branchExists branchPathCfg scriptDir rootPath revEnv mig
          m empty branch (PyVal.list (ps.map PyVal.str)) splice depend
          (PyVal.list ls) (PyVal.str p) =
        .ok { message := m,
              head := .list ((ps.map PyVal.str).map (qualifyItem branch)),
              splice := splice, depends_on := depend, branch_labels := ls,
              version_path := PyVal.str p }) := by
  subst hmig
  have hpne : p ≠ "" := Alembic.isAbsPath_ne_empty habs
  have hpt : pyTruthy (PyVal.str p) = true := pyTruthy_str hpne
  have hpar := parentNorm_list env henv (ps.map PyVal.str)
  rw [map_getattr_strs] at hpar
  have hlab := labelNorm_list env henv ls
  have hstep := branchStep_eval env branchExists branchPathCfg branch
    (ps.map PyVal.str) ls (PyVal.str p) hbr hpt
  constructor
  · intro hbe
    subst hbe
    rw [Alembic.revision]
    simp only [hpar, hlab, hstep]
    simp [hpt, pathResolve_abs env rootPath habs, ite_self]
  · intro hbe
    subst hbe
    rw [Alembic.revision]
    simp only [hpar, hlab, hstep]
    simp [hpt, pathResolve_abs env rootPath habs, ite_self]

/-- Witness for C5: creating a revision on the fresh branch named
feature re-parents it to base and labels it with the branch name. -/
theorem revision_independent_branch_witness :
    Alembic.revision ("string_types" :: moduleNames) false Option.none "loc" "/app"
        false (.ok ()) "msg" true "feature" (PyVal.list (["head"].map PyVal.str))
        false PyVal.none (PyVal.list []) (PyVal.str "/versions") =
      .ok { message := "msg", head := .tuple [PyVal.str "base"], splice := false,
            depends_on := PyVal.none,
            branch_labels := PyVal.str "feature" :: ([] : List PyVal),
            version_path := PyVal.str "/versions" } :=
  (revision_independent_branch ("string_types" :: moduleNames) false Option.none
      "loc" "/app" false (.ok ()) "msg" true "feature" ["head"] false PyVal.none
      [] "/versions" (List.mem_cons_self _ _) (by decide) (by decide) rfl).1 rfl
